import Mathlib

/-!
Verification of the homomorphic-encryption notebook: modular-arithmetic
utilities (extended Euclid, modular inverse), a multiplicative ElGamal
cryptosystem and plain RSA, each with unreduced homomorphic multiplication.

Python integers are modelled as `Nat` where the source only ever holds
non-negative values (messages, moduli, exponents) and as `Int` where
negatives occur (Bézout coefficients).  Python `%` on a positive modulus
agrees with `Int.emod` / `Nat.mod`, and `//` with `Int.ediv` / `Nat.div`,
on the values that occur here.  Random draws (`randint`) become explicit
parameters constrained to the inclusive range `randint` samples from.
The `while` loop searching RSA's public exponent is embedded step-indexed
(`loopE` with fuel); `phi` units of fuel are provably enough whenever the
loop terminates at all, and divergence shows up as `none`.
-/

/-- Extended Euclidean algorithm, from the source's `egcd`:
`egcd a b` returns `(g, x, y)` with the recursion
`egcd 0 b = (b, 0, 1)` and otherwise `g, y, x := egcd (b % a) a`
followed by `(g, x - (b / a) * y, y)`. -/
def egcd : Nat → Nat → Nat × Int × Int
  | 0, b => (b, 0, 1)
  | (a + 1), b =>
    let r := egcd (b % (a + 1)) (a + 1)
    (r.1, r.2.2 - ((b / (a + 1) : Nat) : Int) * r.2.1, r.2.1)
termination_by a _ => a
decreasing_by exact Nat.mod_lt _ (Nat.succ_pos _)

/-- Source's `modinv a m`: runs `egcd a m`; if the gcd is not `1` it raises
(modelled as `none`), otherwise it returns the Bézout coefficient of `a`
reduced by `% m`.  Python's `x % m` itself raises `ZeroDivisionError` when
`m = 0`, so that case is also an error (`none`); for `m ≥ 1` the reduction
agrees with `Int.emod`. -/
def modinv (a m : Nat) : Option Int :=
  let r := egcd a m
  if r.1 ≠ 1 then none
  else if m = 0 then none
  else some (r.2.1 % (m : Int))

theorem egcd_zero (b : Nat) : egcd 0 b = (b, 0, 1) := by
  simp [egcd]

theorem egcd_succ (a b : Nat) :
    egcd (a + 1) b =
      ((egcd (b % (a + 1)) (a + 1)).1,
       (egcd (b % (a + 1)) (a + 1)).2.2
         - ((b / (a + 1) : Nat) : Int) * (egcd (b % (a + 1)) (a + 1)).2.1,
       (egcd (b % (a + 1)) (a + 1)).2.1) := by
  simp [egcd]

/-- The first component of `egcd` is the gcd. -/
theorem egcd_fst (a b : Nat) : (egcd a b).1 = Nat.gcd a b := by
  induction a using Nat.strong_induction_on generalizing b with
  | _ a ih =>
    match a with
    | 0 => simp [egcd_zero]
    | (a + 1) =>
      rw [egcd_succ, Nat.gcd_rec]
      exact ih (b % (a + 1)) (Nat.mod_lt _ (Nat.succ_pos a)) (a + 1)

/-- Bézout identity for `egcd`. -/
theorem egcd_bezout (a b : Nat) :
    (a : Int) * (egcd a b).2.1 + (b : Int) * (egcd a b).2.2 = ((egcd a b).1 : Int) := by
  induction a using Nat.strong_induction_on generalizing b with
  | _ a ih =>
    match a with
    | 0 => simp [egcd_zero]
    | (a + 1) =>
      rw [egcd_succ]
      have h := ih (b % (a + 1)) (Nat.mod_lt _ (Nat.succ_pos a)) (a + 1)
      have hdm : (((a + 1) : Nat) : Int) * ((b / (a + 1) : Nat) : Int)
          + ((b % (a + 1) : Nat) : Int) = (b : Int) := by
        exact_mod_cast Nat.div_add_mod b (a + 1)
      dsimp only
      linear_combination h - (egcd (b % (a + 1)) (a + 1)).2.1 * hdm

/-! ## ElGamal cryptosystem -/

/-- ElGamal `PublicKey(p, a, b)`. -/
structure ElGamal.PublicKey where
  p : Nat
  a : Nat
  b : Nat
deriving DecidableEq

/-- ElGamal `SecretKey(d)`. -/
structure ElGamal.SecretKey where
  d : Nat
deriving DecidableEq

/-- ElGamal `Ciphertext(r, t)`. -/
structure ElGamal.Ciphertext where
  r : Nat
  t : Nat
deriving DecidableEq

/-- Source's ElGamal `keygen p`, with the two `randint` draws made explicit:
`ra` stands for `randint(1, p - 1)` (so a caller-supplied value in the
inclusive range `[1, p-1]`) and `rd` for `randint(2, p - 2)` (range
`[2, p-2]`); the function then computes `b = ra ^ rd % p`. -/
def ElGamal.keygen (p ra rd : Nat) : ElGamal.PublicKey × ElGamal.SecretKey :=
  (⟨p, ra, ra ^ rd % p⟩, ⟨rd⟩)

/-- The inclusive ranges from which `keygen p` draws its two random values:
`randint(1, p - 1)` and `randint(2, p - 2)`. -/
def ElGamal.keygenDraw (p ra rd : Nat) : Prop :=
  1 ≤ ra ∧ ra ≤ p - 1 ∧ 2 ≤ rd ∧ rd ≤ p - 2

instance (p ra rd : Nat) : Decidable (ElGamal.keygenDraw p ra rd) := by
  unfold ElGamal.keygenDraw; infer_instance

/-- Source's ElGamal `encrypt message pk`, with the ephemeral draw
`k = randint(0, 100)` made explicit: `r = a ^ k % p`,
`t = (b ^ k * message) % p`. -/
def ElGamal.encrypt (message : Nat) (pk : ElGamal.PublicKey) (k : Nat) :
    ElGamal.Ciphertext :=
  ⟨pk.a ^ k % pk.p, pk.b ^ k * message % pk.p⟩

/-- Source's ElGamal `decrypt c pk sk`:
`(c.r ^ sk.d) ^ (pk.p - 2) * c.t % pk.p`. -/
def ElGamal.decrypt (c : ElGamal.Ciphertext) (pk : ElGamal.PublicKey)
    (sk : ElGamal.SecretKey) : Nat :=
  (c.r ^ sk.d) ^ (pk.p - 2) * c.t % pk.p

/-- Source's ElGamal `mult`: componentwise product, deliberately unreduced. -/
def ElGamal.mult (a b : ElGamal.Ciphertext) : ElGamal.Ciphertext :=
  ⟨a.r * b.r, a.t * b.t⟩

/-! ## RSA cryptosystem -/

/-- RSA `PublicKey(e, n)`. -/
structure RSA.PublicKey where
  e : Nat
  n : Nat
deriving DecidableEq

/-- RSA `SecretKey(d, n)`. -/
structure RSA.SecretKey where
  d : Nat
  n : Nat
deriving DecidableEq

/-- RSA `Ciphertext(m)`. -/
structure RSA.Ciphertext where
  m : Nat
deriving DecidableEq

/-- Step-indexed embedding of the `while gcd(phi, e) != 1: e += 1` loop in
RSA's `keygen`: starting from `e`, return the first candidate whose gcd
with `phi` is `1`, or `none` when `fuel` iterations do not reach one
(the Python loop would still be running). -/
def loopE (phi e fuel : Nat) : Option Nat :=
  match fuel with
  | 0 => none
  | (f + 1) => if Nat.gcd phi e = 1 then some e else loopE phi (e + 1) f

/-- The exponent found by the loop, started at `e = 2` as in the source.
`phi` units of fuel are enough: when `0 < phi` the candidate `phi + 1` is
coprime to `phi` and is reached within `phi` steps, and when `phi = 0` the
Python loop diverges (no `e ≥ 2` has `gcd(0, e) = e = 1`), so the junk
value `0` is returned. -/
def findE (phi : Nat) : Nat :=
  (loopE phi 2 phi).getD 0

/-- Source's RSA `keygen p q`: `n = p * q`, `phi = (p - 1) * (q - 1)`, `e`
from the linear scan, `d = modinv e phi`.  A raise inside `modinv` (and a
diverging scan) is modelled as `none`; `modinv`'s result is non-negative
(it ends with `% phi`), so storing it as a `Nat` is faithful. -/
def RSA.keygen (p q : Nat) : Option (RSA.PublicKey × RSA.SecretKey) :=
  let n := p * q
  let phi := (p - 1) * (q - 1)
  let e := findE phi
  match modinv e phi with
  | none => none
  | some d => some (⟨e, n⟩, ⟨d.toNat, n⟩)

/-- Source's RSA `encrypt message pk`: `message ^ e % n`. -/
def RSA.encrypt (message : Nat) (pk : RSA.PublicKey) : RSA.Ciphertext :=
  ⟨message ^ pk.e % pk.n⟩

/-- Source's RSA `decrypt c sk`: `c.m ^ d % n`. -/
def RSA.decrypt (c : RSA.Ciphertext) (sk : RSA.SecretKey) : Nat :=
  c.m ^ sk.d % sk.n

/-- Source's RSA `mult`: product of the encrypted integers, unreduced. -/
def RSA.mult (a b : RSA.Ciphertext) : RSA.Ciphertext :=
  ⟨a.m * b.m⟩

/-! ## Helper lemmas -/

theorem gcd_self_succ (n : Nat) : Nat.gcd n (n + 1) = 1 := by
  have h1 := Nat.gcd_dvd_left n (n + 1)
  have h2 := Nat.gcd_dvd_right n (n + 1)
  have h3 : Nat.gcd n (n + 1) ∣ (n + 1) - n := Nat.dvd_sub' h2 h1
  rw [Nat.add_sub_cancel_left] at h3
  exact Nat.dvd_one.mp h3

theorem loopE_spec (phi : Nat) : ∀ fuel e e', loopE phi e fuel = some e' →
    e ≤ e' ∧ Nat.gcd phi e' = 1 ∧ ∀ x, e ≤ x → x < e' → Nat.gcd phi x ≠ 1 := by
  intro fuel
  induction fuel with
  | zero => intro e e' h; simp [loopE] at h
  | succ f ih =>
    intro e e' h
    rw [loopE] at h
    by_cases hg : Nat.gcd phi e = 1
    · simp [hg] at h
      subst h
      exact ⟨Nat.le_refl e, hg, fun x hx1 hx2 => absurd hx1 (by omega)⟩
    · simp [hg] at h
      obtain ⟨h1, h2, h3⟩ := ih (e + 1) e' h
      refine ⟨by omega, h2, fun x hx1 hx2 => ?_⟩
      rcases Nat.eq_or_lt_of_le hx1 with heq | hlt
      · exact heq ▸ hg
      · exact h3 x hlt hx2

theorem loopE_of_coprime (phi : Nat) : ∀ fuel e,
    (∃ k, k < fuel ∧ Nat.gcd phi (e + k) = 1) →
    ∃ e', loopE phi e fuel = some e' := by
  intro fuel
  induction fuel with
  | zero => intro e ⟨k, hk, _⟩; omega
  | succ f ih =>
    intro e ⟨k, hk, hgcd⟩
    rw [loopE]
    by_cases hg : Nat.gcd phi e = 1
    · exact ⟨e, by simp [hg]⟩
    · have hk0 : k ≠ 0 := by
        intro h0
        exact hg (by simpa [h0] using hgcd)
      simp only [hg, if_false]
      exact ih (e + 1) ⟨k - 1, by omega, by rw [show e + 1 + (k - 1) = e + k by omega]; exact hgcd⟩

theorem findE_spec (phi : Nat) (hphi : 0 < phi) :
    loopE phi 2 phi = some (findE phi) ∧ 2 ≤ findE phi ∧
      Nat.gcd phi (findE phi) = 1 ∧
      ∀ x, 2 ≤ x → x < findE phi → Nat.gcd phi x ≠ 1 := by
  obtain ⟨e', he⟩ := loopE_of_coprime phi phi 2
    ⟨phi - 1, by omega, by rw [show 2 + (phi - 1) = phi + 1 by omega]; exact gcd_self_succ phi⟩
  have hfind : findE phi = e' := by simp [findE, he]
  obtain ⟨h1, h2, h3⟩ := loopE_spec phi phi 2 e' he
  exact ⟨hfind ▸ he, hfind ▸ h1, hfind ▸ h2, hfind ▸ h3⟩

theorem modinv_eq_none_iff (a m : Nat) (hm : 1 ≤ m) :
    modinv a m = none ↔ Nat.gcd a m ≠ 1 := by
  have hm0 : m ≠ 0 := by omega
  by_cases h : Nat.gcd a m = 1 <;> simp [modinv, egcd_fst, h, hm0]

theorem modinv_of_coprime (a m : Nat) (hm : m ≠ 0) (h : Nat.gcd a m = 1) :
    modinv a m = some ((egcd a m).2.1 % (m : Int)) := by
  simp [modinv, egcd_fst, h, hm]

/-! ## Claims about the modular-arithmetic utilities -/

/-- C6: for all non-negative integers `a`, `b` (including `a = 0`, where the
result is `(b, 0, 1)`), `egcd a b` returns `(g, x, y)` with `g = gcd a b`
and `a * x + b * y = g`; in particular `egcd 1071 462 = (21, -3, 7)`. -/
theorem egcd_correct :
    (∀ a b : Nat, (egcd a b).1 = Nat.gcd a b ∧
      (a : Int) * (egcd a b).2.1 + (b : Int) * (egcd a b).2.2 = ((egcd a b).1 : Int)) ∧
    (∀ b : Nat, egcd 0 b = (b, 0, 1)) ∧
    egcd 1071 462 = (21, -3, 7) := by
  refine ⟨fun a b => ⟨egcd_fst a b, egcd_bezout a b⟩, fun b => egcd_zero b, ?_⟩
  simp [egcd]

/-- C7 as stated is false on the code: at `(a, m) = (1, 0)` the gcd is `1`,
yet the source still raises — `egcd(1, 0) = (1, 1, 0)` passes the
`g != 1` check and `x % m` then raises `ZeroDivisionError` — so "fails if
and only if `gcd a m ≠ 1`" does not hold at `m = 0`. -/
theorem modinv_error_counterexample :
    Nat.gcd 1 0 = 1 ∧ modinv 1 0 = none := by
  constructor
  · rfl
  · simp [modinv, egcd]

/-- C7 (amended: the failure iff restricted to real moduli `m ≥ 1`, since at
`m = 0` the source raises `ZeroDivisionError` from `x % 0` even when
`gcd a 0 = 1`): for `m ≥ 1`, `modinv a m` fails (returns `none`, the model
of the raise) exactly when `gcd a m ≠ 1`; for coprime `a`, `m` with `m > 1`
it returns the unique `x ∈ [0, m)` with `(a * x) % m = 1`; in particular
`modinv 17 3120 = some 2753`. -/
theorem modinv_correct :
    (∀ a m : Nat, 1 ≤ m → (modinv a m = none ↔ Nat.gcd a m ≠ 1)) ∧
    (∀ a m : Nat, Nat.gcd a m = 1 → 1 < m →
      ∃ x : Int, modinv a m = some x ∧ 0 ≤ x ∧ x < (m : Int) ∧
        ((a : Int) * x) % (m : Int) = 1 ∧
        ∀ y : Int, 0 ≤ y → y < (m : Int) → ((a : Int) * y) % (m : Int) = 1 → y = x) ∧
    modinv 17 3120 = some 2753 := by
  refine ⟨modinv_eq_none_iff, ?_, by simp [modinv, egcd]⟩
  intro a m hg hm
  have hmne : m ≠ 0 := by omega
  have hm0 : (m : Int) ≠ 0 := by exact_mod_cast by omega
  have hmpos : (0 : Int) < m := by exact_mod_cast by omega
  have hbez : (a : Int) * (egcd a m).2.1 + (m : Int) * (egcd a m).2.2 = 1 := by
    have h := egcd_bezout a m
    rw [egcd_fst, hg] at h
    exact_mod_cast h
  set xb : Int := (egcd a m).2.1 with hxb
  set yb : Int := (egcd a m).2.2 with hyb
  have hval : ((a : Int) * (xb % m)) % m = 1 := by
    have h1 : ((a : Int) * (xb % m)) % m = ((a : Int) * xb) % m := by
      conv_lhs => rw [Int.mul_emod]
      conv_rhs => rw [Int.mul_emod]
      rw [Int.emod_emod_of_dvd xb dvd_rfl]
    have h2 : (a : Int) * xb = 1 + (m : Int) * (-yb) := by linarith
    rw [h1, h2, Int.add_mul_emod_self_left]
    exact Int.emod_eq_of_lt (by norm_num) (by exact_mod_cast hm)
  refine ⟨xb % m, modinv_of_coprime a m hmne hg, Int.emod_nonneg xb hm0,
    Int.emod_lt_of_pos xb hmpos, hval, ?_⟩
  intro y hy0 hym hy1
  have hmod : ((a : Int) * (xb % m)) % m = ((a : Int) * y) % m := by rw [hval, hy1]
  have hdvd : (m : Int) ∣ (a : Int) * ((xb % m) - y) := by
    have := Int.ModEq.dvd (hmod : Int.ModEq (m : Int) _ _)
    have h3 : (a : Int) * y - (a : Int) * (xb % m) = (a : Int) * (y - (xb % m)) := by ring
    rw [h3] at this
    exact (dvd_neg).mp (by rw [show -((a : Int) * ((xb % m) - y)) = (a : Int) * (y - (xb % m)) by ring]; exact this)
  have hcop : IsCoprime (m : Int) (a : Int) := by
    rw [← Int.gcd_eq_one_iff_coprime]
    have : Int.gcd (m : Int) (a : Int) = Nat.gcd m a := rfl
    rw [this, Nat.gcd_comm]
    exact hg
  have hz : (m : Int) ∣ ((xb % m) - y) := hcop.dvd_of_dvd_mul_left hdvd
  have habs : |(xb % m) - y| < (m : Int) := by
    have := Int.emod_nonneg xb hm0
    have := Int.emod_lt_of_pos xb hmpos
    rw [abs_lt]
    constructor <;> linarith
  have := Int.eq_zero_of_abs_lt_dvd hz habs
  linarith

/-- Witness for C7 at `(a, m) = (17, 3120)`. -/
theorem modinv_correct_witness :
    Nat.gcd 17 3120 = 1 ∧ 1 < 3120 ∧
    (∃ x : Int, modinv 17 3120 = some x ∧ 0 ≤ x ∧ x < ((3120 : Nat) : Int) ∧
      (((17 : Nat) : Int) * x) % ((3120 : Nat) : Int) = 1 ∧
      ∀ y : Int, 0 ≤ y → y < ((3120 : Nat) : Int) →
        (((17 : Nat) : Int) * y) % ((3120 : Nat) : Int) = 1 → y = x) :=
  ⟨by decide, by norm_num, modinv_correct.2.1 17 3120 (by decide) (by norm_num)⟩

/-! ## Claims about ElGamal -/

theorem elgamal_gen_ne_zero (p a : Nat) (hp : 2 ≤ p) (h1 : 1 ≤ a) (h2 : a ≤ p - 1) :
    (a : ZMod p) ≠ 0 := by
  intro h0
  rw [ZMod.natCast_zmod_eq_zero_iff_dvd] at h0
  have := Nat.le_of_dvd (by omega) h0
  omega

/-- C3: for every prime `p ≥ 5`, every key pair produced by `keygen p` from
draws in `randint`'s ranges, every plaintext in `[0, p)` and every ephemeral
exponent `k` drawn during encryption, decryption inverts encryption. -/
theorem elgamal_roundtrip (p a d k m : Nat) (hp : Nat.Prime p) (hp5 : 5 ≤ p)
    (hdraw : ElGamal.keygenDraw p a d) (_hk : k ≤ 100) (hm : m < p) :
    ElGamal.decrypt (ElGamal.encrypt m (ElGamal.keygen p a d).1 k)
      (ElGamal.keygen p a d).1 (ElGamal.keygen p a d).2 = m := by
  haveI : Fact p.Prime := ⟨hp⟩
  obtain ⟨ha1, ha2, hd1, hd2⟩ := hdraw
  simp only [ElGamal.keygen, ElGamal.encrypt, ElGamal.decrypt]
  rw [← Nat.mod_eq_of_lt hm]
  apply (ZMod.natCast_eq_natCast_iff' _ _ p).mp
  push_cast [ZMod.natCast_mod]
  obtain ⟨t, ht1, ht2⟩ : ∃ t, p - 2 = t ∧ p - 1 = t + 1 := ⟨p - 2, rfl, by omega⟩
  rw [ht1]
  have hA : (a : ZMod p) ≠ 0 := elgamal_gen_ne_zero p a (by omega) ha1 ha2
  have h1 : (a : ZMod p) ^ (t + 1) = 1 := by
    rw [← ht2]; exact ZMod.pow_card_sub_one_eq_one hA
  calc (((a : ZMod p) ^ k) ^ d) ^ t * (((a : ZMod p) ^ d) ^ k * (m : ZMod p))
      = ((a : ZMod p) ^ (t + 1)) ^ (k * d) * (m : ZMod p) := by ring
    _ = (m : ZMod p) := by rw [h1, one_pow, one_mul]

/-- Witness for C3 at `p = 47`, draws `a = 2`, `d = 3`, `k = 4`,
plaintext `42`: the spec's example round-trip. -/
theorem elgamal_roundtrip_witness :
    Nat.Prime 47 ∧ 5 ≤ 47 ∧ ElGamal.keygenDraw 47 2 3 ∧ 4 ≤ 100 ∧ 42 < 47 ∧
    ElGamal.decrypt (ElGamal.encrypt 42 (ElGamal.keygen 47 2 3).1 4)
      (ElGamal.keygen 47 2 3).1 (ElGamal.keygen 47 2 3).2 = 42 :=
  ⟨by norm_num, by norm_num, by decide, by norm_num, by norm_num,
   elgamal_roundtrip 47 2 3 4 42 (by norm_num) (by norm_num) (by decide)
     (by norm_num) (by norm_num)⟩

/-- C1: for every prime `p ≥ 5`, every key pair from valid draws, plaintexts
`m1, m2 < p` and all ephemeral exponents drawn during the two encryptions,
decrypting the homomorphic product yields `(m1 * m2) % p`. -/
theorem elgamal_homomorphic (p a d k1 k2 m1 m2 : Nat) (hp : Nat.Prime p)
    (hp5 : 5 ≤ p) (hdraw : ElGamal.keygenDraw p a d)
    (_hk1 : k1 ≤ 100) (_hk2 : k2 ≤ 100) (_hm1 : m1 < p) (_hm2 : m2 < p) :
    ElGamal.decrypt
      (ElGamal.mult (ElGamal.encrypt m1 (ElGamal.keygen p a d).1 k1)
        (ElGamal.encrypt m2 (ElGamal.keygen p a d).1 k2))
      (ElGamal.keygen p a d).1 (ElGamal.keygen p a d).2 = m1 * m2 % p := by
  haveI : Fact p.Prime := ⟨hp⟩
  obtain ⟨ha1, ha2, hd1, hd2⟩ := hdraw
  simp only [ElGamal.keygen, ElGamal.encrypt, ElGamal.decrypt, ElGamal.mult]
  apply (ZMod.natCast_eq_natCast_iff' _ _ p).mp
  push_cast [ZMod.natCast_mod]
  obtain ⟨t, ht1, ht2⟩ : ∃ t, p - 2 = t ∧ p - 1 = t + 1 := ⟨p - 2, rfl, by omega⟩
  rw [ht1]
  have hA : (a : ZMod p) ≠ 0 := elgamal_gen_ne_zero p a (by omega) ha1 ha2
  have h1 : (a : ZMod p) ^ (t + 1) = 1 := by
    rw [← ht2]; exact ZMod.pow_card_sub_one_eq_one hA
  calc (((a : ZMod p) ^ k1 * (a : ZMod p) ^ k2) ^ d) ^ t *
        (((a : ZMod p) ^ d) ^ k1 * (m1 : ZMod p) *
          (((a : ZMod p) ^ d) ^ k2 * (m2 : ZMod p)))
      = ((a : ZMod p) ^ (t + 1)) ^ ((k1 + k2) * d) * ((m1 : ZMod p) * (m2 : ZMod p)) := by
        ring
    _ = (m1 : ZMod p) * (m2 : ZMod p) := by rw [h1, one_pow, one_mul]

/-- Witness for C1 at `p = 47`, draws `a = 2`, `d = 3`, `k1 = 4`, `k2 = 7`,
plaintexts `6` and `5`: the spec's example product `30`. -/
theorem elgamal_homomorphic_witness :
    Nat.Prime 47 ∧ 5 ≤ 47 ∧ ElGamal.keygenDraw 47 2 3 ∧ 4 ≤ 100 ∧ 7 ≤ 100 ∧
    6 < 47 ∧ 5 < 47 ∧
    ElGamal.decrypt
      (ElGamal.mult (ElGamal.encrypt 6 (ElGamal.keygen 47 2 3).1 4)
        (ElGamal.encrypt 5 (ElGamal.keygen 47 2 3).1 7))
      (ElGamal.keygen 47 2 3).1 (ElGamal.keygen 47 2 3).2 = 6 * 5 % 47 :=
  ⟨by norm_num, by norm_num, by decide, by norm_num, by norm_num, by norm_num,
   by norm_num,
   elgamal_homomorphic 47 2 3 4 7 6 5 (by norm_num) (by norm_num) (by decide)
     (by norm_num) (by norm_num) (by norm_num) (by norm_num)⟩

/-- C8 as stated is false on the code: `keygen p` draws the generator with
`randint(1, p - 1)`, whose inclusive range is `[1, p-1]`, not `[1, p-2]`.
At `p = 5` the possible draw `a = 4` produces a key pair whose generator
`4` is outside `[1, 5-2]`. -/
theorem elgamal_keygen_range_counterexample :
    Nat.Prime 5 ∧ 5 ≤ 5 ∧ ElGamal.keygenDraw 5 4 2 ∧
    ¬ (ElGamal.keygen 5 4 2).1.a ≤ 5 - 2 := by
  refine ⟨by norm_num, Nat.le_refl 5, by decide, by decide⟩

/-- C8 (amended): for every prime `p ≥ 5` and every possible random draw,
`keygen p` returns a key pair whose generator lies in `[1, p-1]` (the
actual `randint(1, p-1)` range), whose secret exponent lies in `[2, p-2]`,
and whose public component `b` equals `a ^ d % p`. -/
theorem elgamal_keygen_ranges (p a d : Nat) (_hp : Nat.Prime p) (_hp5 : 5 ≤ p)
    (hdraw : ElGamal.keygenDraw p a d) :
    1 ≤ (ElGamal.keygen p a d).1.a ∧ (ElGamal.keygen p a d).1.a ≤ p - 1 ∧
    2 ≤ (ElGamal.keygen p a d).2.d ∧ (ElGamal.keygen p a d).2.d ≤ p - 2 ∧
    (ElGamal.keygen p a d).1.b =
      (ElGamal.keygen p a d).1.a ^ (ElGamal.keygen p a d).2.d % p := by
  obtain ⟨h1, h2, h3, h4⟩ := hdraw
  exact ⟨h1, h2, h3, h4, rfl⟩

/-- Witness for the amended C8 at `p = 5`, draws `a = 4`, `d = 2`. -/
theorem elgamal_keygen_ranges_witness :
    Nat.Prime 5 ∧ 5 ≤ 5 ∧ ElGamal.keygenDraw 5 4 2 ∧
    (1 ≤ (ElGamal.keygen 5 4 2).1.a ∧ (ElGamal.keygen 5 4 2).1.a ≤ 5 - 1 ∧
      2 ≤ (ElGamal.keygen 5 4 2).2.d ∧ (ElGamal.keygen 5 4 2).2.d ≤ 5 - 2 ∧
      (ElGamal.keygen 5 4 2).1.b =
        (ElGamal.keygen 5 4 2).1.a ^ (ElGamal.keygen 5 4 2).2.d % 5) :=
  ⟨by norm_num, Nat.le_refl 5, by decide,
   elgamal_keygen_ranges 5 4 2 (by norm_num) (Nat.le_refl 5) (by decide)⟩

/-! ## Claims about RSA -/

/-- C2: with any secret key `(d, n)`, `n ≥ 1`, decrypting the unreduced
product ciphertext equals `(m1 * m2) ^ d % n`, which equals the product of
the individual decryptions reduced mod `n`. -/
theorem rsa_homomorphic (sk : RSA.SecretKey) (m1 m2 : Nat) (_hn : 1 ≤ sk.n) :
    RSA.decrypt (RSA.mult ⟨m1⟩ ⟨m2⟩) sk = (m1 * m2) ^ sk.d % sk.n ∧
    RSA.decrypt (RSA.mult ⟨m1⟩ ⟨m2⟩) sk =
      (RSA.decrypt ⟨m1⟩ sk * RSA.decrypt ⟨m2⟩ sk) % sk.n := by
  refine ⟨rfl, ?_⟩
  show (m1 * m2) ^ sk.d % sk.n = (m1 ^ sk.d % sk.n * (m2 ^ sk.d % sk.n)) % sk.n
  rw [mul_pow, Nat.mul_mod]

/-- Witness for C2 with the spec's key `(d, n) = (1783, 3233)` and
plaintext ciphertexts `6`, `5`. -/
theorem rsa_homomorphic_witness :
    1 ≤ (⟨1783, 3233⟩ : RSA.SecretKey).n ∧
    (RSA.decrypt (RSA.mult ⟨6⟩ ⟨5⟩) ⟨1783, 3233⟩ =
        (6 * 5) ^ (⟨1783, 3233⟩ : RSA.SecretKey).d % (⟨1783, 3233⟩ : RSA.SecretKey).n ∧
      RSA.decrypt (RSA.mult ⟨6⟩ ⟨5⟩) ⟨1783, 3233⟩ =
        (RSA.decrypt ⟨6⟩ ⟨1783, 3233⟩ * RSA.decrypt ⟨5⟩ ⟨1783, 3233⟩) %
          (⟨1783, 3233⟩ : RSA.SecretKey).n) :=
  ⟨by decide, rsa_homomorphic ⟨1783, 3233⟩ 6 5 (by decide)⟩

/-- Concrete evaluation of `keygen 61 53` through the embedded loop,
`egcd` and `modinv`. -/
theorem rsa_keygen_eval : RSA.keygen 61 53 = some (⟨7, 3233⟩, ⟨1783, 3233⟩) := by
  simp [RSA.keygen, findE, loopE, modinv, egcd]

/-- Structure of a successful `RSA.keygen`: the modulus is `p * q`, the
public exponent is the smallest `e ≥ 2` coprime to `phi` and the secret
exponent is `modinv e phi`. -/
theorem rsa_keygen_spec (p q : Nat) (h : 0 < (p - 1) * (q - 1)) :
    ∃ pk sk, RSA.keygen p q = some (pk, sk) ∧
      pk.n = p * q ∧ sk.n = p * q ∧
      2 ≤ pk.e ∧ Nat.gcd ((p - 1) * (q - 1)) pk.e = 1 ∧
      (∀ x, 2 ≤ x → x < pk.e → Nat.gcd ((p - 1) * (q - 1)) x ≠ 1) ∧
      modinv pk.e ((p - 1) * (q - 1)) = some ((sk.d : Nat) : Int) := by
  obtain ⟨hloop, he2, hgcd, hmin⟩ := findE_spec ((p - 1) * (q - 1)) h
  have hgcd' : Nat.gcd (findE ((p - 1) * (q - 1))) ((p - 1) * (q - 1)) = 1 := by
    rw [Nat.gcd_comm]; exact hgcd
  have hmi := modinv_of_coprime (findE ((p - 1) * (q - 1))) ((p - 1) * (q - 1))
    (by omega) hgcd'
  have hnn : (0 : Int) ≤ (egcd (findE ((p - 1) * (q - 1))) ((p - 1) * (q - 1))).2.1 %
      (((p - 1) * (q - 1) : Nat) : Int) :=
    Int.emod_nonneg _ (by exact_mod_cast Nat.pos_iff_ne_zero.mp h)
  refine ⟨⟨findE ((p - 1) * (q - 1)), p * q⟩,
    ⟨((egcd (findE ((p - 1) * (q - 1))) ((p - 1) * (q - 1))).2.1 %
        (((p - 1) * (q - 1) : Nat) : Int)).toNat, p * q⟩,
    ?_, rfl, rfl, he2, hgcd, hmin, ?_⟩
  · simp only [RSA.keygen]
    rw [hmi]
  · rw [hmi]
    congr 1
    exact (Int.toNat_of_nonneg hnn).symm

/-- C5: `keygen p q` is a deterministic function computing `n = p * q`,
`phi = (p-1)(q-1)`, the smallest `e ≥ 2` coprime to `phi` by linear upward
scan, and `d = modinv e phi`; in particular `keygen 61 53` always yields
public key `(7, 3233)` and secret key `(1783, 3233)`. -/
theorem rsa_keygen_deterministic :
    (∀ p q : Nat, 0 < (p - 1) * (q - 1) →
      ∃ pk sk, RSA.keygen p q = some (pk, sk) ∧
        pk.n = p * q ∧ sk.n = p * q ∧
        2 ≤ pk.e ∧ Nat.gcd ((p - 1) * (q - 1)) pk.e = 1 ∧
        (∀ x, 2 ≤ x → x < pk.e → Nat.gcd ((p - 1) * (q - 1)) x ≠ 1) ∧
        modinv pk.e ((p - 1) * (q - 1)) = some ((sk.d : Nat) : Int)) ∧
    RSA.keygen 61 53 = some (⟨7, 3233⟩, ⟨1783, 3233⟩) :=
  ⟨rsa_keygen_spec, rsa_keygen_eval⟩

/-- Witness for C5 at `(p, q) = (61, 53)`. -/
theorem rsa_keygen_deterministic_witness :
    0 < (61 - 1) * (53 - 1) ∧
    ∃ pk sk, RSA.keygen 61 53 = some (pk, sk) ∧
      pk.n = 61 * 53 ∧ sk.n = 61 * 53 ∧
      2 ≤ pk.e ∧ Nat.gcd ((61 - 1) * (53 - 1)) pk.e = 1 ∧
      (∀ x, 2 ≤ x → x < pk.e → Nat.gcd ((61 - 1) * (53 - 1)) x ≠ 1) ∧
      modinv pk.e ((61 - 1) * (53 - 1)) = some ((sk.d : Nat) : Int) :=
  ⟨by norm_num, rsa_keygen_deterministic.1 61 53 (by norm_num)⟩

/-- C9: for primes `p`, `q` the linear scan terminates (within the a-priori
fuel bound `phi`) on an exponent coprime to `phi`, so the raise inside
`modinv` is unreachable and `keygen` succeeds. -/
theorem rsa_keygen_terminates (p q : Nat) (hp : Nat.Prime p) (hq : Nat.Prime q) :
    (∃ e, loopE ((p - 1) * (q - 1)) 2 ((p - 1) * (q - 1)) = some e ∧
      Nat.gcd ((p - 1) * (q - 1)) e = 1 ∧
      (modinv e ((p - 1) * (q - 1))).isSome = true) ∧
    (RSA.keygen p q).isSome = true := by
  have hphi : 0 < (p - 1) * (q - 1) := by
    have h2p := hp.two_le
    have h2q := hq.two_le
    exact Nat.mul_pos (by omega) (by omega)
  obtain ⟨hloop, he2, hgcd, hmin⟩ := findE_spec ((p - 1) * (q - 1)) hphi
  constructor
  · refine ⟨findE ((p - 1) * (q - 1)), hloop, hgcd, ?_⟩
    rw [modinv_of_coprime _ _ (by omega) (by rw [Nat.gcd_comm]; exact hgcd)]
    rfl
  · obtain ⟨pk, sk, hkg, _⟩ := rsa_keygen_spec p q hphi
    rw [hkg]
    rfl

/-- Witness for C9 at `(p, q) = (2, 2)`. -/
theorem rsa_keygen_terminates_witness :
    Nat.Prime 2 ∧
    ((∃ e, loopE ((2 - 1) * (2 - 1)) 2 ((2 - 1) * (2 - 1)) = some e ∧
        Nat.gcd ((2 - 1) * (2 - 1)) e = 1 ∧
        (modinv e ((2 - 1) * (2 - 1))).isSome = true) ∧
      (RSA.keygen 2 2).isSome = true) :=
  ⟨by norm_num, rsa_keygen_terminates 2 2 (by norm_num) (by norm_num)⟩

/-- Fermat step for RSA: for a prime `p`, `m ^ (c * (p - 1) + 1) ≡ m` mod `p`. -/
theorem pow_totient_modEq (p : Nat) (hp : Nat.Prime p) (c m : Nat) :
    m ^ (c * (p - 1) + 1) ≡ m [MOD p] := by
  haveI : Fact p.Prime := ⟨hp⟩
  apply (ZMod.natCast_eq_natCast_iff _ _ _).mp
  push_cast
  by_cases hM : (m : ZMod p) = 0
  · rw [hM, zero_pow (by omega)]
  · rw [pow_succ, mul_comm c (p - 1), pow_mul, ZMod.pow_card_sub_one_eq_one hM,
      one_pow, one_mul]

/-- C4: for the key pair `keygen 61 53` (public `(7, 3233)`, secret
`(1783, 3233)`) and every plaintext `m < 3233`, decryption inverts
encryption. -/
theorem rsa_roundtrip (m : Nat) (hm : m < 3233) :
    RSA.keygen 61 53 = some (⟨7, 3233⟩, ⟨1783, 3233⟩) ∧
    RSA.decrypt (RSA.encrypt m ⟨7, 3233⟩) ⟨1783, 3233⟩ = m := by
  refine ⟨rsa_keygen_eval, ?_⟩
  show (m ^ 7 % 3233) ^ 1783 % 3233 = m
  have h1 : (m ^ 7 % 3233) ^ 1783 ≡ (m ^ 7) ^ 1783 [MOD 3233] :=
    (Nat.mod_modEq (m ^ 7) 3233).pow 1783
  have h2 : (m ^ 7) ^ 1783 = m ^ 12481 := by rw [← pow_mul]
  have h61 : m ^ 12481 ≡ m [MOD 61] := by
    have h := pow_totient_modEq 61 (by norm_num) 208 m
    norm_num at h
    exact h
  have h53 : m ^ 12481 ≡ m [MOD 53] := by
    have h := pow_totient_modEq 53 (by norm_num) 240 m
    norm_num at h
    exact h
  have h3233 : m ^ 12481 ≡ m [MOD 3233] := by
    have h := (Nat.modEq_and_modEq_iff_modEq_mul (by decide : Nat.Coprime 61 53)).mp
      ⟨h61, h53⟩
    norm_num at h
    exact h
  calc (m ^ 7 % 3233) ^ 1783 % 3233
      = (m ^ 7) ^ 1783 % 3233 := h1
    _ = m ^ 12481 % 3233 := by rw [h2]
    _ = m % 3233 := h3233
    _ = m := Nat.mod_eq_of_lt hm

/-- Witness for C4 at `m = 42`: the spec's example round-trip. -/
theorem rsa_roundtrip_witness :
    42 < 3233 ∧
    (RSA.keygen 61 53 = some (⟨7, 3233⟩, ⟨1783, 3233⟩) ∧
      RSA.decrypt (RSA.encrypt 42 ⟨7, 3233⟩) ⟨1783, 3233⟩ = 42) :=
  ⟨by norm_num, rsa_roundtrip 42 (by norm_num)⟩

/-- C10: both decrypt routines reduce by the modulus last, so the result
lies in `[0, modulus)` even on unreduced ciphertexts from `mult`. -/
theorem decrypt_in_range :
    (∀ (c : ElGamal.Ciphertext) (pk : ElGamal.PublicKey) (sk : ElGamal.SecretKey),
      2 ≤ pk.p → ElGamal.decrypt c pk sk < pk.p) ∧
    (∀ (c : RSA.Ciphertext) (sk : RSA.SecretKey), 1 ≤ sk.n →
      RSA.decrypt c sk < sk.n) := by
  constructor
  · intro c pk sk hp
    exact Nat.mod_lt _ (by omega)
  · intro c sk hn
    exact Nat.mod_lt _ (by omega)

/-- Witness for C10 on the notebook's unreduced product ciphertexts. -/
theorem decrypt_in_range_witness :
    2 ≤ (⟨47, 2, 8⟩ : ElGamal.PublicKey).p ∧
    ElGamal.decrypt ⟨378, 52⟩ ⟨47, 2, 8⟩ ⟨3⟩ < (⟨47, 2, 8⟩ : ElGamal.PublicKey).p ∧
    1 ≤ (⟨1783, 3233⟩ : RSA.SecretKey).n ∧
    RSA.decrypt ⟨1011634⟩ ⟨1783, 3233⟩ < (⟨1783, 3233⟩ : RSA.SecretKey).n :=
  ⟨by decide, decrypt_in_range.1 ⟨378, 52⟩ ⟨47, 2, 8⟩ ⟨3⟩ (by decide),
   by decide, decrypt_in_range.2 ⟨1011634⟩ ⟨1783, 3233⟩ (by decide)⟩
